import Mathlib

/-!
Shallow embedding of the valarx/raytracer core (src/vec_math/vec3.rs,
src/material.rs, src/ray_tracing.rs).

Modelling conventions:
- f64 values are modelled as real numbers; f64::INFINITY as the top
  element of EReal, so a t-bounds pair is (lower : Real, upper : EReal).
- The source of randomness (rand::ThreadRng) is an external collaborator
  per the spec; it is modelled as injected streams of draws.  The
  rejection loop of Vec3::random_in_unit_sphere is modelled as drawing
  the next accepted unit-ball sample from such a stream.
- Rust trait objects: the only Hittable in the program is Sphere, and the
  Material trait has exactly the three implementors Diffusor, Reflector,
  Refractor, so both are modelled as closed types.
-/

open Classical

noncomputable section

structure Vec3 where
  x : ℝ
  y : ℝ
  z : ℝ

instance : Add Vec3 := ⟨fun a b => ⟨a.x + b.x, a.y + b.y, a.z + b.z⟩⟩

instance : Sub Vec3 := ⟨fun a b => ⟨a.x - b.x, a.y - b.y, a.z - b.z⟩⟩

instance : Neg Vec3 := ⟨fun a => ⟨-a.x, -a.y, -a.z⟩⟩

/-- Dot product: the source implements Mul of Vec3 by Vec3 returning f64. -/
instance : HMul Vec3 Vec3 ℝ := ⟨fun a b => a.x * b.x + a.y * b.y + a.z * b.z⟩

/-- Scalar multiple, Vec3 by f64. -/
instance : HMul Vec3 ℝ Vec3 := ⟨fun a r => ⟨a.x * r, a.y * r, a.z * r⟩⟩

/-- Scalar multiple, f64 by Vec3. -/
instance : HMul ℝ Vec3 Vec3 := ⟨fun r a => ⟨r * a.x, r * a.y, r * a.z⟩⟩

instance : HDiv Vec3 ℝ Vec3 := ⟨fun a r => ⟨a.x / r, a.y / r, a.z / r⟩⟩

theorem Vec3.add_def (a b : Vec3) : a + b = ⟨a.x + b.x, a.y + b.y, a.z + b.z⟩ := rfl

theorem Vec3.sub_def (a b : Vec3) : a - b = ⟨a.x - b.x, a.y - b.y, a.z - b.z⟩ := rfl

theorem Vec3.neg_def (a : Vec3) : -a = ⟨-a.x, -a.y, -a.z⟩ := rfl

theorem Vec3.dot_def (a b : Vec3) : a * b = a.x * b.x + a.y * b.y + a.z * b.z := rfl

theorem Vec3.smul_right_def (a : Vec3) (r : ℝ) : a * r = ⟨a.x * r, a.y * r, a.z * r⟩ := rfl

theorem Vec3.smul_left_def (r : ℝ) (a : Vec3) : r * a = ⟨r * a.x, r * a.y, r * a.z⟩ := rfl

theorem Vec3.div_def (a : Vec3) (r : ℝ) : a / r = ⟨a.x / r, a.y / r, a.z / r⟩ := rfl

def Vec3.len_squared (v : Vec3) : ℝ := v.x * v.x + v.y * v.y + v.z * v.z

def Vec3.len (v : Vec3) : ℝ := Real.sqrt v.len_squared

def Vec3.to_unit (v : Vec3) : Vec3 := v / v.len

def Vec3.cross_product (v rhs : Vec3) : Vec3 :=
  ⟨v.y * rhs.z - v.z * rhs.y, v.z * rhs.x - v.x * rhs.z, v.x * rhs.y - v.y * rhs.x⟩

def Vec3.near_zero (v : Vec3) : Prop :=
  |v.x| < 1e-8 ∧ |v.y| < 1e-8 ∧ |v.z| < 1e-8

def Vec3.reflect (v normal : Vec3) : Vec3 := v - (2 * (v * normal)) * normal

/-- The quantity whose square root the source takes in Vec3::refract:
abs of one minus the squared length of the perpendicular component. -/
def Vec3.refract_radicand (v normal : Vec3) (refr_quot : ℝ) : ℝ :=
  |1 - (refr_quot * (v + (min (-v * normal) 1) * normal)).len_squared|

def Vec3.refract (v normal : Vec3) (refr_quot : ℝ) : Vec3 :=
  let cos_theta := min (-v * normal) 1
  let r_out_perp := refr_quot * (v + cos_theta * normal)
  let r_out_parallel := (-Real.sqrt (|1 - r_out_perp.len_squared|)) * normal
  r_out_perp + r_out_parallel

/-- Modelled from the spec: the randomness source is an injected external
collaborator, represented as streams of draws together with cursors.
sphere_samples is the stream of accepted unit-ball samples produced by the
rejection loop of Vec3::random_in_unit_sphere; uniforms is the stream of
uniform draws produced by gen on f64. -/
structure RNG where
  sphere_samples : ℕ → Vec3
  uniforms : ℕ → ℝ
  si : ℕ
  ui : ℕ

/-- Modelled from the spec: the rejection loop of Vec3::random_in_unit_sphere
(loop until squared length below one) is modelled as returning the next
accepted sample of the injected stream. -/
def Vec3.random_in_unit_sphere (rng : RNG) : Vec3 × RNG :=
  (rng.sphere_samples rng.si, { rng with si := rng.si + 1 })

def Vec3.random_in_hemisphere (rng : RNG) (normal : Vec3) : Vec3 × RNG :=
  let p := Vec3.random_in_unit_sphere rng
  if (p.1 * normal : ℝ) > 0 then (p.1, p.2) else (-p.1, p.2)

def RNG.gen (rng : RNG) : ℝ × RNG :=
  (rng.uniforms rng.ui, { rng with ui := rng.ui + 1 })

structure Ray where
  origin : Vec3
  direction : Vec3

def Ray.at (ray : Ray) (t : ℝ) : Vec3 := ray.origin + ray.direction * t

inductive Material where
  | diffusor (color : Vec3)
  | reflector (color : Vec3) (fuzz_coeff : ℝ)
  | refractor (color : Vec3) (fuzz_coeff : ℝ) (refr_coeff : ℝ)

structure HitRecord where
  point : Vec3
  normal : Vec3
  material : Material
  t : ℝ
  front_face : Bool

def HitRecord.new (point outward_normal : Vec3) (material : Material)
    (ray : Ray) (t : ℝ) : HitRecord :=
  let front_face := decide ((ray.direction * outward_normal : ℝ) < 0)
  let normal := if front_face then outward_normal else -outward_normal
  ⟨point, normal, material, t, front_face⟩

def shlick_approximation_reflectance (cosine ref_idx : ℝ) : ℝ :=
  let r0 := (1 - ref_idx) / (1 + ref_idx)
  let r0_squared := r0 ^ 2
  r0_squared + (1 - r0_squared) * (1 - cosine) ^ 5

def Material.scatter (m : Material) (record : HitRecord) (ray : Ray)
    (rng : RNG) : Option (Vec3 × Ray) × RNG :=
  match m with
  | .diffusor color =>
      let p := Vec3.random_in_hemisphere rng record.normal
      if p.1.near_zero then
        (some (color, Ray.mk record.point record.normal), p.2)
      else
        (some (color, Ray.mk record.point p.1), p.2)
  | .reflector color fuzz_coeff =>
      let reflected := (ray.direction.to_unit).reflect record.normal
      let p := Vec3.random_in_hemisphere rng record.normal
      let scattered := Ray.mk record.point (reflected + p.1 * fuzz_coeff)
      if (scattered.direction * record.normal : ℝ) > 0 then
        (some (color, scattered), p.2)
      else
        (none, p.2)
  | .refractor color fuzz_coeff refr_coeff =>
      let refr_quot := if record.front_face then 1 / refr_coeff else refr_coeff
      let unit_direction := ray.direction.to_unit
      let cos_theta := min (-unit_direction * record.normal) 1
      let sin_theta := Real.sqrt (1 - cos_theta ^ 2)
      if refr_quot * sin_theta > 1 then
        let reflected := unit_direction.reflect record.normal
        let p := Vec3.random_in_hemisphere rng record.normal
        (some (color, Ray.mk record.point (reflected + p.1 * fuzz_coeff)), p.2)
      else
        let u := RNG.gen rng
        if shlick_approximation_reflectance cos_theta refr_quot > u.1 then
          let reflected := unit_direction.reflect record.normal
          let p := Vec3.random_in_hemisphere u.2 record.normal
          (some (color, Ray.mk record.point (reflected + p.1 * fuzz_coeff)), p.2)
        else
          let refracted := unit_direction.refract record.normal refr_quot
          let p := Vec3.random_in_hemisphere u.2 record.normal
          (some (color, Ray.mk record.point (refracted + p.1 * fuzz_coeff)), p.2)

structure Sphere where
  center : Vec3
  radius : ℝ
  material : Material

/-- A t-bounds pair: lower bound a real, upper bound an extended real so that
f64::INFINITY (used by Ray::color) is representable. -/
def TBounds : Type := ℝ × EReal

def is_within_range (t : ℝ) (t_bounds : TBounds) : Prop :=
  t_bounds.1 ≤ t ∧ (t : EReal) ≤ t_bounds.2

def sphere_a (ray : Ray) : ℝ := ray.direction * ray.direction

def sphere_half_b (s : Sphere) (ray : Ray) : ℝ :=
  ((ray.origin - s.center) * ray.direction : ℝ)

def sphere_c (s : Sphere) (ray : Ray) : ℝ :=
  ((ray.origin - s.center) * (ray.origin - s.center) : ℝ) - s.radius * s.radius

def sphere_discriminant (s : Sphere) (ray : Ray) : ℝ :=
  4 * sphere_half_b s ray * sphere_half_b s ray - 4 * sphere_a ray * sphere_c s ray

/-- The smaller quadratic root minus_b_to_a - divided_discriminant evaluated
first by Sphere::hit. -/
def sphere_root1 (s : Sphere) (ray : Ray) : ℝ :=
  -sphere_half_b s ray / sphere_a ray -
    Real.sqrt (sphere_discriminant s ray) / (2 * sphere_a ray)

/-- The larger quadratic root minus_b_to_a + divided_discriminant tried
second by Sphere::hit. -/
def sphere_root2 (s : Sphere) (ray : Ray) : ℝ :=
  -sphere_half_b s ray / sphere_a ray +
    Real.sqrt (sphere_discriminant s ray) / (2 * sphere_a ray)

def Sphere.hit (s : Sphere) (ray : Ray) (t_bounds : TBounds) : Option HitRecord :=
  if sphere_discriminant s ray < 0 then none
  else
    let t := sphere_root1 s ray
    if is_within_range t t_bounds then
      some (HitRecord.new (ray.at t) ((ray.at t - s.center) / s.radius)
        s.material ray t)
    else
      let t := sphere_root2 s ray
      if is_within_range t t_bounds then
        some (HitRecord.new (ray.at t) ((ray.at t - s.center) / s.radius)
          s.material ray t)
      else
        none

/-- The ray parameter t is a geometric intersection of the ray with the
sphere surface: the point at t is at distance radius from the center. -/
def on_sphere (s : Sphere) (ray : Ray) (t : ℝ) : Prop :=
  ((ray.at t - s.center) * (ray.at t - s.center) : ℝ) = s.radius * s.radius

structure Scene where
  hittables : List Sphere

/-- The loop body of Scene::hit: scan the remaining hittables carrying the
best record so far and the narrowed upper bound closest. -/
def hit_loop (ray : Ray) (t_min : ℝ) :
    List Sphere → Option HitRecord → EReal → Option HitRecord
  | [], result, _ => result
  | hittable :: rest, result, closest =>
      match hittable.hit ray (t_min, closest) with
      | some hit_record => hit_loop ray t_min rest (some hit_record) hit_record.t
      | none => hit_loop ray t_min rest result closest

def Scene.hit (scene : Scene) (ray : Ray) (t_bounds : TBounds) : Option HitRecord :=
  hit_loop ray t_bounds.1 scene.hittables none t_bounds.2

def Ray.color (ray : Ray) (rng : RNG) (scene : Scene) (depth : ℕ) : Vec3 × RNG :=
  match depth with
  | 0 => (⟨0, 0, 0⟩, rng)
  | d + 1 =>
      match Scene.hit scene ray (0.001, ⊤) with
      | some record =>
          match Material.scatter record.material record ray rng with
          | (some scatter_result, rng1) =>
              let r := Ray.color scatter_result.2 rng1 scene d
              (⟨(scatter_result.1).x * r.1.x, (scatter_result.1).y * r.1.y,
                (scatter_result.1).z * r.1.z⟩, r.2)
          | (none, rng1) => (⟨0, 0, 0⟩, rng1)
      | none =>
          let unit_direction := ray.direction.to_unit
          let t := 0.5 * (unit_direction.y + 1)
          ((1 - t) * (⟨1, 1, 1⟩ : Vec3) + t * (⟨0.5, 0.7, 1⟩ : Vec3), rng)

/-- Nesting depth of the recursion performed by Ray::color: mirrors its
control flow, counting one for each recursive invocation actually made. -/
def Ray.colorCalls (ray : Ray) (rng : RNG) (scene : Scene) (depth : ℕ) : ℕ :=
  match depth with
  | 0 => 0
  | d + 1 =>
      match Scene.hit scene ray (0.001, ⊤) with
      | some record =>
          match Material.scatter record.material record ray rng with
          | (some scatter_result, rng1) =>
              Ray.colorCalls scatter_result.2 rng1 scene d + 1
          | (none, _) => 0
      | none => 0

theorem HitRecord.new_t (point outward_normal : Vec3) (material : Material)
    (ray : Ray) (t : ℝ) :
    (HitRecord.new point outward_normal material ray t).t = t := rfl

theorem quad_roots (a b c t : ℝ) (ha : 0 < a) :
    a * t ^ 2 + 2 * b * t + c = 0 ↔
      0 ≤ 4 * b * b - 4 * a * c ∧
        (t = -b / a - Real.sqrt (4 * b * b - 4 * a * c) / (2 * a) ∨
          t = -b / a + Real.sqrt (4 * b * b - 4 * a * c) / (2 * a)) := by
  have ha0 : a ≠ 0 := ne_of_gt ha
  constructor
  · intro h
    have hd : 4 * b * b - 4 * a * c = (2 * a * t + 2 * b) ^ 2 := by
      linear_combination (-4 * a) * h
    have hnn : 0 ≤ 4 * b * b - 4 * a * c := by rw [hd]; positivity
    refine ⟨hnn, ?_⟩
    have hs : Real.sqrt (4 * b * b - 4 * a * c) = |2 * a * t + 2 * b| := by
      rw [hd, Real.sqrt_sq_eq_abs]
    rcases abs_cases (2 * a * t + 2 * b) with ⟨he, _⟩ | ⟨he, _⟩
    · right
      rw [hs, he]
      field_simp
      ring
    · left
      rw [hs, he]
      field_simp
      ring
  · rintro ⟨hd, h | h⟩ <;>
    · subst h
      have hs : Real.sqrt (4 * b * b - 4 * a * c) ^ 2 = 4 * b * b - 4 * a * c :=
        Real.sq_sqrt hd
      field_simp
      linear_combination (2 * a ^ 5) * hs

theorem root1_le_root2 (s : Sphere) (ray : Ray) (ha : 0 < sphere_a ray) :
    sphere_root1 s ray ≤ sphere_root2 s ray := by
  have h : 0 ≤ Real.sqrt (sphere_discriminant s ray) / (2 * sphere_a ray) :=
    div_nonneg (Real.sqrt_nonneg _) (by linarith)
  unfold sphere_root1 sphere_root2
  linarith

theorem on_sphere_iff_quad (s : Sphere) (ray : Ray) (t : ℝ) :
    on_sphere s ray t ↔
      sphere_a ray * t ^ 2 + 2 * sphere_half_b s ray * t + sphere_c s ray = 0 := by
  simp only [on_sphere, sphere_a, sphere_half_b, sphere_c, Ray.at, Vec3.dot_def,
    Vec3.sub_def, Vec3.add_def, Vec3.smul_right_def]
  constructor <;> intro h <;> linear_combination h

theorem on_sphere_char (s : Sphere) (ray : Ray) (t : ℝ) (ha : 0 < sphere_a ray) :
    on_sphere s ray t ↔
      0 ≤ sphere_discriminant s ray ∧
        (t = sphere_root1 s ray ∨ t = sphere_root2 s ray) := by
  have hdisc : sphere_discriminant s ray =
      4 * sphere_half_b s ray * sphere_half_b s ray - 4 * sphere_a ray * sphere_c s ray := rfl
  rw [on_sphere_iff_quad,
    quad_roots (sphere_a ray) (sphere_half_b s ray) (sphere_c s ray) t ha]
  rw [sphere_root1, sphere_root2, hdisc]

theorem sphere_hit_some_char (s : Sphere) (ray : Ray) (t_bounds : TBounds)
    (ha : 0 < sphere_a ray) (rec : HitRecord)
    (hrec : Sphere.hit s ray t_bounds = some rec) :
    on_sphere s ray rec.t ∧ is_within_range rec.t t_bounds ∧
      ∀ u, on_sphere s ray u → is_within_range u t_bounds → rec.t ≤ u := by
  have hd0 := not_lt (a := sphere_discriminant s ray) (b := 0)
  simp only [Sphere.hit] at hrec
  split_ifs at hrec with hd h1 h2
  · rw [Option.some_inj] at hrec
    subst hrec
    rw [HitRecord.new_t]
    refine ⟨(on_sphere_char s ray _ ha).mpr ⟨hd0.mp hd, Or.inl rfl⟩, h1, ?_⟩
    intro u hu _
    rcases ((on_sphere_char s ray u ha).mp hu).2 with h | h <;> rw [h]
    exact root1_le_root2 s ray ha
  · rw [Option.some_inj] at hrec
    subst hrec
    rw [HitRecord.new_t]
    refine ⟨(on_sphere_char s ray _ ha).mpr ⟨hd0.mp hd, Or.inr rfl⟩, h2, ?_⟩
    intro u hu hiu
    rcases ((on_sphere_char s ray u ha).mp hu).2 with h | h
    · rw [h] at hiu
      exact absurd hiu h1
    · rw [h]

theorem sphere_hit_none_iff (s : Sphere) (ray : Ray) (t_bounds : TBounds)
    (ha : 0 < sphere_a ray) :
    Sphere.hit s ray t_bounds = none ↔
      ∀ u, on_sphere s ray u → ¬ is_within_range u t_bounds := by
  have hd0 := not_lt (a := sphere_discriminant s ray) (b := 0)
  simp only [Sphere.hit]
  split_ifs with hd h1 h2
  · refine iff_of_true rfl ?_
    intro u hu _
    have := ((on_sphere_char s ray u ha).mp hu).1
    linarith
  · refine iff_of_false (by simp) ?_
    intro hall
    exact hall (sphere_root1 s ray)
      ((on_sphere_char s ray _ ha).mpr ⟨hd0.mp hd, Or.inl rfl⟩) h1
  · refine iff_of_false (by simp) ?_
    intro hall
    exact hall (sphere_root2 s ray)
      ((on_sphere_char s ray _ ha).mpr ⟨hd0.mp hd, Or.inr rfl⟩) h2
  · refine iff_of_true rfl ?_
    intro u hu hiu
    rcases ((on_sphere_char s ray u ha).mp hu).2 with h | h <;> rw [h] at hiu
    · exact h1 hiu
    · exact h2 hiu

/-- C1: Sphere::hit returns None when the discriminant is negative; otherwise
it evaluates the smaller root first, returns a hit there when it lies within
the closed t interval, else a hit at the larger root when that lies within
the interval, and otherwise None; any returned hit is a geometric
intersection of the ray with the sphere that lies within the bounds and is
nearest among all such intersections, and None is returned exactly when no
intersection lies within the bounds. -/
theorem sphere_hit_correct (s : Sphere) (ray : Ray) (t_bounds : TBounds)
    (ha : 0 < sphere_a ray) :
    (sphere_discriminant s ray < 0 → Sphere.hit s ray t_bounds = none)
    ∧ (0 ≤ sphere_discriminant s ray →
        is_within_range (sphere_root1 s ray) t_bounds →
        Option.map HitRecord.t (Sphere.hit s ray t_bounds) =
          some (sphere_root1 s ray))
    ∧ (0 ≤ sphere_discriminant s ray →
        ¬ is_within_range (sphere_root1 s ray) t_bounds →
        is_within_range (sphere_root2 s ray) t_bounds →
        Option.map HitRecord.t (Sphere.hit s ray t_bounds) =
          some (sphere_root2 s ray))
    ∧ (0 ≤ sphere_discriminant s ray →
        ¬ is_within_range (sphere_root1 s ray) t_bounds →
        ¬ is_within_range (sphere_root2 s ray) t_bounds →
        Sphere.hit s ray t_bounds = none)
    ∧ (∀ rec, Sphere.hit s ray t_bounds = some rec →
        on_sphere s ray rec.t ∧ is_within_range rec.t t_bounds ∧
          ∀ u, on_sphere s ray u → is_within_range u t_bounds → rec.t ≤ u)
    ∧ (Sphere.hit s ray t_bounds = none ↔
        ∀ u, on_sphere s ray u → ¬ is_within_range u t_bounds) := by
  refine ⟨?_, ?_, ?_, ?_, sphere_hit_some_char s ray t_bounds ha,
    sphere_hit_none_iff s ray t_bounds ha⟩
  · intro h
    simp [Sphere.hit, h]
  · intro h0 h1
    have hd : ¬ sphere_discriminant s ray < 0 := not_lt.mpr h0
    simp [Sphere.hit, hd, h1, HitRecord.new_t]
  · intro h0 h1 h2
    have hd : ¬ sphere_discriminant s ray < 0 := not_lt.mpr h0
    simp [Sphere.hit, hd, h1, h2, HitRecord.new_t]
  · intro h0 h1 h2
    have hd : ¬ sphere_discriminant s ray < 0 := not_lt.mpr h0
    simp [Sphere.hit, hd, h1, h2]

def mat1 : Material := .diffusor ⟨0.5, 0.5, 0.5⟩

def sph1 : Sphere := ⟨⟨0, 0, -5⟩, 1, mat1⟩

def ray1 : Ray := ⟨⟨0, 0, 0⟩, ⟨0, 0, -1⟩⟩

/-- A deterministic random stream: every accepted unit-ball sample is the
fixed vector with z one tenth, every uniform draw is zero. -/
def rng0 : RNG := ⟨fun _ => ⟨0, 0, 0.1⟩, fun _ => 0, 0, 0⟩

theorem sph1_a_val : sphere_a ray1 = 1 := by
  simp only [sphere_a, ray1, Vec3.dot_def]
  norm_num

theorem sph1_half_b_val : sphere_half_b sph1 ray1 = -5 := by
  simp only [sphere_half_b, sph1, ray1, Vec3.sub_def, Vec3.dot_def]
  norm_num

theorem sph1_c_val : sphere_c sph1 ray1 = 24 := by
  simp only [sphere_c, sph1, ray1, Vec3.sub_def, Vec3.dot_def]
  norm_num

theorem sph1_disc_val : sphere_discriminant sph1 ray1 = 4 := by
  simp only [sphere_discriminant, sph1_a_val, sph1_half_b_val, sph1_c_val]
  norm_num

theorem sqrt_four : Real.sqrt 4 = 2 := by
  rw [show (4 : ℝ) = 2 ^ 2 by norm_num, Real.sqrt_sq (by norm_num : (0:ℝ) ≤ 2)]

theorem sph1_root1_val : sphere_root1 sph1 ray1 = 4 := by
  simp only [sphere_root1, sph1_disc_val, sph1_half_b_val, sph1_a_val, sqrt_four]
  norm_num

theorem sph1_root2_val : sphere_root2 sph1 ray1 = 6 := by
  simp only [sphere_root2, sph1_disc_val, sph1_half_b_val, sph1_a_val, sqrt_four]
  norm_num

theorem sphere_hit_correct_witness :
    Option.map HitRecord.t (Sphere.hit sph1 ray1 (0.001, (⊤ : EReal))) = some 4 := by
  have h := (sphere_hit_correct sph1 ray1 (0.001, (⊤ : EReal))
    (by rw [sph1_a_val]; norm_num)).2.1
  have hd : (0:ℝ) ≤ sphere_discriminant sph1 ray1 := by
    rw [sph1_disc_val]; norm_num
  have h1 : is_within_range (sphere_root1 sph1 ray1) (0.001, (⊤ : EReal)) := by
    rw [sph1_root1_val]
    exact ⟨by norm_num, le_top⟩
  have := h hd h1
  rw [sph1_root1_val] at this
  exact this

theorem hit_loop_char (ray : Ray) (t_min : ℝ) (t_max : EReal)
    (ha : 0 < sphere_a ray) :
    ∀ (l : List Sphere) (res : Option HitRecord) (closest : EReal),
      (res = none → closest = t_max) →
      (∀ rec0, res = some rec0 → closest = (rec0.t : EReal) ∧
          is_within_range rec0.t (t_min, t_max)) →
      (∀ rec, hit_loop ray t_min l res closest = some rec →
          is_within_range rec.t (t_min, t_max) ∧
          (res = some rec ∨ ∃ s ∈ l, on_sphere s ray rec.t) ∧
          (∀ s ∈ l, ∀ u, on_sphere s ray u →
            is_within_range u (t_min, t_max) → rec.t ≤ u) ∧
          (∀ rec0, res = some rec0 → rec.t ≤ rec0.t)) ∧
        (hit_loop ray t_min l res closest = none ↔
          res = none ∧ ∀ s ∈ l, ∀ u, on_sphere s ray u →
            ¬ is_within_range u (t_min, t_max)) := by
  intro l
  induction l with
  | nil =>
      intro res closest hnone hsome
      constructor
      · intro rec hrec
        simp only [hit_loop] at hrec
        obtain ⟨hc, hin⟩ := hsome rec hrec
        refine ⟨hin, Or.inl hrec, by simp, ?_⟩
        intro rec0 h0
        rw [hrec] at h0
        exact le_of_eq (congrArg HitRecord.t (Option.some_inj.mp h0))
      · simp only [hit_loop]
        constructor
        · intro hr
          exact ⟨hr, by simp⟩
        · rintro ⟨hr, -⟩
          exact hr
  | cons h rest ih =>
      intro res closest hnone hsome
      have hcmax : closest ≤ t_max := by
        cases hres : res with
        | none =>
            rw [hnone hres]
        | some rec0 =>
            obtain ⟨hc, hin⟩ := hsome rec0 hres
            rw [hc]
            exact hin.2
      cases heq : Sphere.hit h ray (t_min, closest) with
      | some rec1 =>
          obtain ⟨hon1, hin1, hmin1⟩ :=
            sphere_hit_some_char h ray (t_min, closest) ha rec1 heq
          have hin1max : is_within_range rec1.t (t_min, t_max) :=
            ⟨hin1.1, le_trans hin1.2 hcmax⟩
          have step : hit_loop ray t_min (h :: rest) res closest
              = hit_loop ray t_min rest (some rec1) (rec1.t : EReal) := by
            simp only [hit_loop, heq]
          obtain ⟨ihs, ihn⟩ := ih (some rec1) (rec1.t : EReal)
            (by simp)
            (by intro rec0 h0
                obtain rfl : rec1 = rec0 := Option.some_inj.mp h0
                exact ⟨rfl, hin1max⟩)
          constructor
          · intro rec hrec
            rw [step] at hrec
            obtain ⟨hinr, horig, hminr, hlast⟩ := ihs rec hrec
            have hrec1 : rec.t ≤ rec1.t := hlast rec1 rfl
            refine ⟨hinr, ?_, ?_, ?_⟩
            · rcases horig with h0 | ⟨s, hsm, hons⟩
              · refine Or.inr ⟨h, List.mem_cons_self h rest, ?_⟩
                obtain rfl : rec1 = rec := Option.some_inj.mp h0
                exact hon1
              · exact Or.inr ⟨s, List.mem_cons_of_mem h hsm, hons⟩
            · intro s hsm u hu hinu
              rcases List.mem_cons.mp hsm with hsh | hsr
              · subst hsh
                by_cases hcu : (u : EReal) ≤ closest
                · exact le_trans hrec1 (hmin1 u hu ⟨hinu.1, hcu⟩)
                · have hlt : (rec1.t : EReal) < (u : EReal) :=
                    lt_of_le_of_lt hin1.2 (not_le.mp hcu)
                  have hlt2 : rec1.t < u := by exact_mod_cast hlt
                  exact le_of_lt (lt_of_le_of_lt hrec1 hlt2)
              · exact hminr s hsr u hu hinu
            · intro rec0 h0
              obtain ⟨hc0, -⟩ := hsome rec0 h0
              have h2 : (rec1.t : EReal) ≤ (rec0.t : EReal) := by
                rw [← hc0]
                exact hin1.2
              have h3 : rec1.t ≤ rec0.t := by exact_mod_cast h2
              exact le_trans hrec1 h3
          · rw [step, ihn]
            constructor
            · rintro ⟨h0, -⟩
              exact Option.noConfusion h0
            · rintro ⟨hres, hall⟩
              exact absurd hin1max
                (hall h (List.mem_cons_self h rest) rec1.t hon1)
      | none =>
          have hnall := (sphere_hit_none_iff h ray (t_min, closest) ha).mp heq
          have step : hit_loop ray t_min (h :: rest) res closest
              = hit_loop ray t_min rest res closest := by
            simp only [hit_loop, heq]
          obtain ⟨ihs, ihn⟩ := ih res closest hnone hsome
          constructor
          · intro rec hrec
            rw [step] at hrec
            obtain ⟨hinr, horig, hminr, hlast⟩ := ihs rec hrec
            refine ⟨hinr, ?_, ?_, hlast⟩
            · rcases horig with h0 | ⟨s, hsm, hons⟩
              · exact Or.inl h0
              · exact Or.inr ⟨s, List.mem_cons_of_mem h hsm, hons⟩
            · intro s hsm u hu hinu
              rcases List.mem_cons.mp hsm with hsh | hsr
              · subst hsh
                have hnin : ¬ is_within_range u (t_min, closest) := hnall u hu
                have hcu : closest < (u : EReal) := by
                  by_contra hle
                  exact hnin ⟨hinu.1, not_lt.mp hle⟩
                cases hres : res with
                | none =>
                    have hct : closest = t_max := hnone hres
                    rw [hct] at hcu
                    exact absurd hinu.2 (not_le.mpr hcu)
                | some rec0 =>
                    obtain ⟨hc0, -⟩ := hsome rec0 hres
                    have h1 : rec.t ≤ rec0.t := hlast rec0 hres
                    rw [hc0] at hcu
                    have h3 : rec0.t < u := by exact_mod_cast hcu
                    exact le_of_lt (lt_of_le_of_lt h1 h3)
              · exact hminr s hsr u hu hinu
          · rw [step, ihn]
            constructor
            · rintro ⟨hres, hall⟩
              refine ⟨hres, ?_⟩
              intro s hsm u hu hinu
              rcases List.mem_cons.mp hsm with hsh | hsr
              · subst hsh
                have hct : closest = t_max := hnone hres
                refine hnall u hu ⟨hinu.1, ?_⟩
                rw [hct]
                exact hinu.2
              · exact hall s hsr u hu hinu
            · rintro ⟨hres, hall⟩
              exact ⟨hres, fun s hsr u hu hinu =>
                hall s (List.mem_cons_of_mem h hsr) u hu hinu⟩

/-- C2: Scene::hit scans the insertion-ordered list of hittables narrowing
the upper bound to the closest t found so far; any record it returns has the
globally smallest intersection parameter within the original bounds over all
hittables, and it returns None exactly when no hittable has an intersection
within those bounds. -/
theorem scene_hit_correct (scene : Scene) (ray : Ray) (t_bounds : TBounds)
    (ha : 0 < sphere_a ray) :
    (∀ rec, Scene.hit scene ray t_bounds = some rec →
        is_within_range rec.t t_bounds ∧
        (∃ s ∈ scene.hittables, on_sphere s ray rec.t) ∧
        ∀ s ∈ scene.hittables, ∀ u, on_sphere s ray u →
          is_within_range u t_bounds → rec.t ≤ u)
    ∧ (Scene.hit scene ray t_bounds = none ↔
        ∀ s ∈ scene.hittables, ∀ u, on_sphere s ray u →
          ¬ is_within_range u t_bounds) := by
  obtain ⟨hs, hn⟩ := hit_loop_char ray t_bounds.1 t_bounds.2 ha
    scene.hittables none t_bounds.2 (fun _ => rfl)
    (fun rec0 h0 => Option.noConfusion h0)
  constructor
  · intro rec hrec
    obtain ⟨hin, horig, hmin, -⟩ := hs rec hrec
    refine ⟨hin, ?_, hmin⟩
    rcases horig with h0 | hex
    · exact Option.noConfusion h0
    · exact hex
  · rw [show Scene.hit scene ray t_bounds
        = hit_loop ray t_bounds.1 scene.hittables none t_bounds.2 from rfl, hn]
    simp

def scene1 : Scene := ⟨[sph1]⟩

theorem on_sphere_sph1_four : on_sphere sph1 ray1 4 := by
  simp only [on_sphere, sph1, ray1, Ray.at, Vec3.add_def, Vec3.smul_right_def,
    Vec3.sub_def, Vec3.dot_def]
  norm_num

theorem scene_hit_correct_witness :
    Scene.hit scene1 ray1 (0.001, (⊤ : EReal)) ≠ none := by
  intro hnone
  exact (scene_hit_correct scene1 ray1 (0.001, (⊤ : EReal))
      (by rw [sph1_a_val]; norm_num)).2.mp hnone sph1 (by simp [scene1])
    4 on_sphere_sph1_four ⟨by norm_num, le_top⟩

theorem HitRecord.new_eq_front (point outward_normal : Vec3) (material : Material)
    (ray : Ray) (t : ℝ) (h : (ray.direction * outward_normal : ℝ) < 0) :
    HitRecord.new point outward_normal material ray t =
      ⟨point, outward_normal, material, t, true⟩ := by
  simp only [HitRecord.new, decide_eq_true h, if_true]

theorem HitRecord.new_eq_back (point outward_normal : Vec3) (material : Material)
    (ray : Ray) (t : ℝ) (h : ¬ (ray.direction * outward_normal : ℝ) < 0) :
    HitRecord.new point outward_normal material ray t =
      ⟨point, -outward_normal, material, t, false⟩ := by
  simp only [HitRecord.new, decide_eq_false h]
  simp

/-- C4: a HitRecord built by HitRecord::new has front_face true exactly when
the dot product of the ray direction with the outward normal is negative; the
stored normal is the outward normal when front_face is true and its negation
when front_face is false. -/
theorem hit_record_new_invariant (point outward_normal : Vec3)
    (material : Material) (ray : Ray) (t : ℝ) :
    ((HitRecord.new point outward_normal material ray t).front_face = true ↔
      (ray.direction * outward_normal : ℝ) < 0)
    ∧ ((HitRecord.new point outward_normal material ray t).front_face = false →
        (HitRecord.new point outward_normal material ray t).normal =
          -outward_normal)
    ∧ ((HitRecord.new point outward_normal material ray t).front_face = true →
        (HitRecord.new point outward_normal material ray t).normal =
          outward_normal) := by
  by_cases h : (ray.direction * outward_normal : ℝ) < 0
  · rw [HitRecord.new_eq_front point outward_normal material ray t h]
    simp [h]
  · rw [HitRecord.new_eq_back point outward_normal material ray t h]
    simp [h]

theorem hit_record_new_invariant_witness :
    (HitRecord.new ⟨0, 0, -4⟩ ⟨0, 0, 1⟩ mat1 ray1 4).front_face = true ∧
      (HitRecord.new ⟨0, 0, -4⟩ ⟨0, 0, 1⟩ mat1 ray1 4).normal = ⟨0, 0, 1⟩ := by
  have h := hit_record_new_invariant ⟨0, 0, -4⟩ ⟨0, 0, 1⟩ mat1 ray1 4
  have hdot : (ray1.direction * (⟨0, 0, 1⟩ : Vec3) : ℝ) < 0 := by
    simp only [ray1, Vec3.dot_def]
    norm_num
  exact ⟨h.1.mpr hdot, h.2.2 (h.1.mpr hdot)⟩

def rec1 : HitRecord := ⟨⟨0, 0, -4⟩, ⟨0, 0, 1⟩, mat1, 4, true⟩

theorem ray1_at_four : ray1.at 4 = ⟨0, 0, -4⟩ := by
  simp only [Ray.at, ray1, Vec3.smul_right_def, Vec3.add_def]
  norm_num

theorem sph1_hit_val : Sphere.hit sph1 ray1 (0.001, (⊤ : EReal)) = some rec1 := by
  have hd : ¬ sphere_discriminant sph1 ray1 < 0 := by
    rw [sph1_disc_val]; norm_num
  have h1 : is_within_range (sphere_root1 sph1 ray1) (0.001, (⊤ : EReal)) := by
    rw [sph1_root1_val]
    exact ⟨by norm_num, le_top⟩
  simp only [Sphere.hit, if_neg hd, if_pos h1]
  rw [sph1_root1_val, ray1_at_four]
  have hout : ((⟨0, 0, -4⟩ : Vec3) - sph1.center) / sph1.radius = ⟨0, 0, 1⟩ := by
    simp only [sph1, Vec3.sub_def, Vec3.div_def]
    norm_num
  rw [hout]
  rw [HitRecord.new_eq_front _ _ _ _ _ (by simp only [ray1, Vec3.dot_def]; norm_num)]
  rfl

theorem scene1_hit_val : Scene.hit scene1 ray1 (0.001, (⊤ : EReal)) = some rec1 := by
  show hit_loop ray1 (0.001 : ℝ) [sph1] none (⊤ : EReal) = some rec1
  simp only [hit_loop, sph1_hit_val]

/-- C3: the integrator returns black at depth zero; otherwise, on a hit whose
material scatters, it returns the component-wise product of the attenuation
with the recursive color of the scattered ray at depth minus one, and on a
hit whose material absorbs it returns black. -/
theorem ray_color_cases (ray : Ray) (rng : RNG) (scene : Scene) :
    ((Ray.color ray rng scene 0).1 = ⟨0, 0, 0⟩)
    ∧ ∀ d (record : HitRecord),
        Scene.hit scene ray (0.001, ⊤) = some record →
        (∀ att scat rng1,
            Material.scatter record.material record ray rng =
              (some (att, scat), rng1) →
            (Ray.color ray rng scene (d + 1)).1 =
              ⟨att.x * (Ray.color scat rng1 scene d).1.x,
               att.y * (Ray.color scat rng1 scene d).1.y,
               att.z * (Ray.color scat rng1 scene d).1.z⟩)
        ∧ (∀ rng1,
            Material.scatter record.material record ray rng = (none, rng1) →
            (Ray.color ray rng scene (d + 1)).1 = ⟨0, 0, 0⟩) := by
  refine ⟨rfl, ?_⟩
  intro d record hrec
  constructor
  · intro att scat rng1 hscat
    simp only [Ray.color, hrec, hscat]
  · intro rng1 hscat
    simp only [Ray.color, hrec, hscat]

theorem rec1_scatter_val :
    Material.scatter rec1.material rec1 ray1 rng0 =
      (some (⟨0.5, 0.5, 0.5⟩, Ray.mk ⟨0, 0, -4⟩ ⟨0, 0, 0.1⟩),
        ⟨rng0.sphere_samples, rng0.uniforms, 1, 0⟩) := by
  have hsample : Vec3.random_in_hemisphere rng0 rec1.normal =
      (⟨0, 0, 0.1⟩, ⟨rng0.sphere_samples, rng0.uniforms, 1, 0⟩) := by
    simp only [Vec3.random_in_hemisphere, Vec3.random_in_unit_sphere, rng0,
      rec1, Vec3.dot_def]
    norm_num
  show Material.scatter mat1 rec1 ray1 rng0 = _
  simp only [mat1, Material.scatter, hsample]
  rw [if_neg ?hnz]
  · rfl
  case hnz =>
    simp only [Vec3.near_zero, not_and_or]
    right
    right
    rw [not_lt, show |(0.1 : ℝ)| = 0.1 from abs_of_nonneg (by norm_num)]
    norm_num

theorem ray_color_cases_witness :
    (Ray.color ray1 rng0 scene1 1).1 = ⟨0, 0, 0⟩ := by
  have h := ((ray_color_cases ray1 rng0 scene1).2 0 rec1 scene1_hit_val).1
    ⟨0.5, 0.5, 0.5⟩ (Ray.mk ⟨0, 0, -4⟩ ⟨0, 0, 0.1⟩)
    ⟨rng0.sphere_samples, rng0.uniforms, 1, 0⟩ rec1_scatter_val
  rw [h]
  show (⟨0.5 * (0:ℝ), 0.5 * (0:ℝ), 0.5 * (0:ℝ)⟩ : Vec3) = ⟨0, 0, 0⟩
  norm_num

theorem Vec3.neg_dot (a b : Vec3) : ((-a) * b : ℝ) = -((a * b : ℝ)) := by
  simp only [Vec3.neg_def, Vec3.dot_def]
  ring

theorem Vec3.dot_self_nonneg (v : Vec3) : 0 ≤ (v * v : ℝ) := by
  simp only [Vec3.dot_def]
  have hx := mul_self_nonneg v.x
  have hy := mul_self_nonneg v.y
  have hz := mul_self_nonneg v.z
  linarith

/-- C5: the hemisphere sampler returns a vector with non-negative dot product
against the given normal, and consequently the diffuse material scatter
direction has non-negative dot product with the surface normal, also in the
near-zero fallback where the direction is the surface normal itself. -/
theorem random_in_hemisphere_correct (rng : RNG) :
    (∀ normal : Vec3,
      0 ≤ ((Vec3.random_in_hemisphere rng normal).1 * normal : ℝ))
    ∧ ∀ (color att : Vec3) (record : HitRecord) (ray scat : Ray) (rng1 : RNG),
        Material.scatter (.diffusor color) record ray rng =
          (some (att, scat), rng1) →
        0 ≤ (scat.direction * record.normal : ℝ) := by
  have hpart1 : ∀ normal : Vec3,
      0 ≤ ((Vec3.random_in_hemisphere rng normal).1 * normal : ℝ) := by
    intro normal
    simp only [Vec3.random_in_hemisphere, Vec3.random_in_unit_sphere]
    split_ifs with h
    · exact le_of_lt h
    · rw [show ((-(rng.sphere_samples rng.si), { rng with si := rng.si + 1 }).1
          * normal : ℝ)
          = ((-(rng.sphere_samples rng.si)) * normal : ℝ) from rfl,
        Vec3.neg_dot]
      exact neg_nonneg.mpr (not_lt.mp h)
  refine ⟨hpart1, ?_⟩
  intro color att record ray scat rng1 hscat
  simp only [Material.scatter] at hscat
  split_ifs at hscat with hnz
  · simp only [Prod.mk.injEq, Option.some.injEq] at hscat
    obtain ⟨⟨-, h2⟩, -⟩ := hscat
    rw [← h2]
    exact Vec3.dot_self_nonneg record.normal
  · simp only [Prod.mk.injEq, Option.some.injEq] at hscat
    obtain ⟨⟨-, h2⟩, -⟩ := hscat
    rw [← h2]
    exact hpart1 record.normal

theorem random_in_hemisphere_correct_witness :
    0 ≤ ((Vec3.random_in_hemisphere rng0 ⟨0, 0, 1⟩).1 * (⟨0, 0, 1⟩ : Vec3) : ℝ) :=
  (random_in_hemisphere_correct rng0).1 ⟨0, 0, 1⟩

/-- The perturbed reflection direction built by the Reflector material:
the reflected unit direction plus the hemisphere sample scaled by fuzz. -/
def reflector_scattered_direction (record : HitRecord) (ray : Ray) (rng : RNG)
    (fuzz_coeff : ℝ) : Vec3 :=
  (ray.direction.to_unit).reflect record.normal +
    (Vec3.random_in_hemisphere rng record.normal).1 * fuzz_coeff

/-- C6: scatter returns None exactly for the Reflective material when the
fuzz-perturbed direction has non-positive dot product with the normal; the
Diffuse and Refractive materials always scatter. -/
theorem scatter_none_iff (m : Material) (record : HitRecord) (ray : Ray)
    (rng : RNG) :
    (Material.scatter m record ray rng).1 = none ↔
      ∃ color fuzz_coeff, m = .reflector color fuzz_coeff ∧
        (reflector_scattered_direction record ray rng fuzz_coeff *
          record.normal : ℝ) ≤ 0 := by
  cases m with
  | diffusor color =>
      simp only [Material.scatter]
      split_ifs <;> simp
  | reflector color fuzz_coeff =>
      simp only [Material.scatter]
      split_ifs with h
      · refine iff_of_false (by simp) ?_
        rintro ⟨c, f, hm, hle⟩
        injection hm with hc hf
        subst hc
        subst hf
        exact absurd h (not_lt.mpr hle)
      · exact iff_of_true rfl ⟨color, fuzz_coeff, rfl, not_lt.mp h⟩
  | refractor color fuzz_coeff refr_coeff =>
      simp only [Material.scatter]
      split_ifs <;> simp

/-- C9: the integrator recursion is structural on depth: the nesting depth of
recursive calls actually performed by Ray::color is bounded by the initial
depth argument, and is zero at depth zero. -/
theorem ray_color_terminates (depth : ℕ) :
    ∀ (ray : Ray) (rng : RNG) (scene : Scene),
      Ray.colorCalls ray rng scene depth ≤ depth ∧
        Ray.colorCalls ray rng scene 0 = 0 := by
  induction depth with
  | zero =>
      intro ray rng scene
      exact ⟨le_refl 0, rfl⟩
  | succ d ih =>
      intro ray rng scene
      refine ⟨?_, rfl⟩
      simp only [Ray.colorCalls]
      split
      · split
        · exact Nat.succ_le_succ ((ih _ _ _).1)
        · exact Nat.zero_le _
      · exact Nat.zero_le _

/-- C10: Vec3::refract takes the square root of the absolute value of one
minus the squared length of the perpendicular component, a quantity that is
non-negative for every input, and the result is the well-defined sum of the
perpendicular component and the parallel component scaled normal. -/
theorem refract_total (v normal : Vec3) (refr_quot : ℝ) :
    0 ≤ Vec3.refract_radicand v normal refr_quot
    ∧ Vec3.refract v normal refr_quot =
        refr_quot * (v + (min (-v * normal) 1) * normal) +
          (-Real.sqrt (Vec3.refract_radicand v normal refr_quot)) * normal :=
  ⟨abs_nonneg _, rfl⟩

/-- C8: when the scene reports no hit over the lower bound one thousandth and
an unbounded top, and the recursion budget is not exhausted, the integrator
returns the vertical sky gradient, which is exactly the sky color when the
unit direction points straight up and exactly white when it points straight
down. -/
theorem ray_color_background (ray : Ray) (rng : RNG) (scene : Scene)
    (depth : ℕ) (hmiss : Scene.hit scene ray (0.001, ⊤) = none)
    (hdir : ray.direction ≠ ⟨0, 0, 0⟩) (hdepth : depth ≠ 0) :
    (Ray.color ray rng scene depth).1 =
      (1 - 0.5 * ((ray.direction.to_unit).y + 1)) * (⟨1, 1, 1⟩ : Vec3) +
        (0.5 * ((ray.direction.to_unit).y + 1)) * (⟨0.5, 0.7, 1⟩ : Vec3)
    ∧ ((ray.direction.to_unit).y = 1 →
        (Ray.color ray rng scene depth).1 = ⟨0.5, 0.7, 1⟩)
    ∧ ((ray.direction.to_unit).y = -1 →
        (Ray.color ray rng scene depth).1 = ⟨1, 1, 1⟩) := by
  obtain ⟨d, rfl⟩ : ∃ d, depth = d + 1 := ⟨depth - 1, by omega⟩
  have hmain : (Ray.color ray rng scene (d + 1)).1 =
      (1 - 0.5 * ((ray.direction.to_unit).y + 1)) * (⟨1, 1, 1⟩ : Vec3) +
        (0.5 * ((ray.direction.to_unit).y + 1)) * (⟨0.5, 0.7, 1⟩ : Vec3) := by
    simp only [Ray.color, hmiss]
  refine ⟨hmain, ?_, ?_⟩ <;> intro hy <;> rw [hmain, hy] <;>
    · simp only [Vec3.smul_left_def, Vec3.add_def]
      norm_num

theorem ray_color_background_witness :
    (Ray.color ⟨⟨0, 0, 0⟩, ⟨0, 1, 0⟩⟩ rng0 ⟨[]⟩ 1).1 = ⟨0.5, 0.7, 1⟩ := by
  have hmiss : Scene.hit ⟨[]⟩ (⟨⟨0, 0, 0⟩, ⟨0, 1, 0⟩⟩ : Ray) (0.001, ⊤) = none :=
    rfl
  have hdir : (⟨⟨0, 0, 0⟩, ⟨0, 1, 0⟩⟩ : Ray).direction ≠ (⟨0, 0, 0⟩ : Vec3) := by
    intro h
    have := congrArg Vec3.y h
    norm_num at this
  have hy : ((⟨⟨0, 0, 0⟩, ⟨0, 1, 0⟩⟩ : Ray).direction.to_unit).y = 1 := by
    simp only [Vec3.to_unit, Vec3.len, Vec3.len_squared, Vec3.div_def]
    norm_num [Real.sqrt_one]
  exact (ray_color_background ⟨⟨0, 0, 0⟩, ⟨0, 1, 0⟩⟩ rng0 ⟨[]⟩ 1 hmiss hdir
    (by norm_num)).2.1 hy

theorem Vec3.ext_components (p q : Vec3) (hx : p.x = q.x) (hy : p.y = q.y)
    (hz : p.z = q.z) : p = q := by
  cases p
  cases q
  simp_all

theorem Vec3.dot_sq_le (u n : Vec3) :
    ((u * n : ℝ)) ^ 2 ≤ (u * u : ℝ) * (n * n : ℝ) := by
  simp only [Vec3.dot_def]
  nlinarith [sq_nonneg (u.x * n.y - u.y * n.x), sq_nonneg (u.x * n.z - u.z * n.x),
    sq_nonneg (u.y * n.z - u.z * n.y)]

theorem Vec3.to_unit_dot_self (v : Vec3) (hv : 0 < (v * v : ℝ)) :
    ((v.to_unit) * (v.to_unit) : ℝ) = 1 := by
  have hv' : (0 : ℝ) < v.len_squared := hv
  have hS : Real.sqrt v.len_squared ^ 2 = v.len_squared :=
    Real.sq_sqrt (le_of_lt hv')
  have hL : Real.sqrt v.len_squared ≠ 0 := ne_of_gt (Real.sqrt_pos.mpr hv')
  simp only [Vec3.to_unit, Vec3.len, Vec3.div_def, Vec3.dot_def]
  rw [div_mul_div_comm, div_mul_div_comm, div_mul_div_comm, div_add_div_same,
    div_add_div_same, div_eq_one_iff_eq (by positivity)]
  have : v.len_squared = v.x * v.x + v.y * v.y + v.z * v.z := rfl
  linear_combination -this - hS

theorem Vec3.refract_unit (u n : Vec3) (hu : (u * u : ℝ) = 1)
    (hn : (n * n : ℝ) = 1) (hc0 : 0 ≤ ((-u) * n : ℝ))
    (hc1 : ((-u) * n : ℝ) ≤ 1) :
    Vec3.refract u n 1 = u := by
  have hone : ∀ w : Vec3, (1 : ℝ) * w = w := by
    intro w
    apply Vec3.ext_components <;> simp [Vec3.smul_left_def]
  have hu' := hu
  have hn' := hn
  rw [Vec3.dot_def] at hu' hn'
  have hc : ((-u) * n : ℝ) = -(u.x * n.x + u.y * n.y + u.z * n.z) := by
    rw [Vec3.neg_dot, Vec3.dot_def]
  have hlen : (u + ((-u) * n : ℝ) * n).len_squared = 1 - ((-u) * n : ℝ) ^ 2 := by
    simp only [Vec3.len_squared, Vec3.add_def, Vec3.smul_left_def]
    rw [hc]
    linear_combination hu' + (u.x * n.x + u.y * n.y + u.z * n.z) ^ 2 * hn'
  have hrad : |1 - (u + ((-u) * n : ℝ) * n).len_squared| = ((-u) * n : ℝ) ^ 2 := by
    rw [hlen, show (1 : ℝ) - (1 - ((-u) * n : ℝ) ^ 2) = ((-u) * n : ℝ) ^ 2 by ring]
    exact abs_of_nonneg (sq_nonneg _)
  have hsqrt : Real.sqrt (((-u) * n : ℝ) ^ 2) = ((-u) * n : ℝ) :=
    Real.sqrt_sq hc0
  simp only [Vec3.refract, min_eq_left hc1, hone]
  rw [hrad, hsqrt]
  apply Vec3.ext_components <;> simp [Vec3.add_def, Vec3.smul_left_def]

/-- C7 (amended): for a Refractive material with refraction index one and
fuzz coefficient zero, for any angle of incidence (unit oriented normal,
nonzero incoming direction with the unit direction facing against the
normal), whenever the uniform draw is at least the Schlick reflectance, so
that the refraction branch is chosen, the scattered ray direction equals the
incoming unit direction. -/
theorem refractor_unit_index_identity (color : Vec3) (record : HitRecord)
    (ray : Ray) (rng : RNG)
    (hn : (record.normal * record.normal : ℝ) = 1)
    (hd : 0 < (ray.direction * ray.direction : ℝ))
    (hcos : 0 ≤ ((-(ray.direction.to_unit)) * record.normal : ℝ))
    (hsch : shlick_approximation_reflectance
        (min ((-(ray.direction.to_unit)) * record.normal : ℝ) 1)
        (if record.front_face then 1 / (1:ℝ) else 1) ≤ rng.uniforms rng.ui) :
    (Material.scatter (.refractor color 0 1) record ray rng).1 =
      some (color, Ray.mk record.point (ray.direction.to_unit)) := by
  have hu : (ray.direction.to_unit * ray.direction.to_unit : ℝ) = 1 :=
    Vec3.to_unit_dot_self _ hd
  have hdsq := Vec3.dot_sq_le (ray.direction.to_unit) record.normal
  rw [hu, hn, one_mul] at hdsq
  have hc1 : ((-(ray.direction.to_unit)) * record.normal : ℝ) ≤ 1 := by
    rw [Vec3.neg_dot]
    nlinarith [hdsq,
      sq_nonneg ((ray.direction.to_unit * record.normal : ℝ) + 1)]
  have hmin : min ((-(ray.direction.to_unit)) * record.normal : ℝ) 1
      = ((-(ray.direction.to_unit)) * record.normal : ℝ) := min_eq_left hc1
  have hq : (if record.front_face then 1 / (1:ℝ) else 1) = 1 := by
    split_ifs <;> norm_num
  have hsin : Real.sqrt
      (1 - ((-(ray.direction.to_unit)) * record.normal : ℝ) ^ 2) ≤ 1 := by
    have h1 : (1 : ℝ) - ((-(ray.direction.to_unit)) * record.normal : ℝ) ^ 2
        ≤ 1 := by
      nlinarith [sq_nonneg (((-(ray.direction.to_unit)) * record.normal : ℝ))]
    have h2 := Real.sqrt_le_sqrt h1
    rwa [Real.sqrt_one] at h2
  have hrefr : Vec3.refract (ray.direction.to_unit) record.normal 1 =
      ray.direction.to_unit :=
    Vec3.refract_unit _ _ hu hn hcos hc1
  have hzero : ∀ w : Vec3,
      Vec3.refract (ray.direction.to_unit) record.normal 1 + w * (0:ℝ) =
        ray.direction.to_unit := by
    intro w
    rw [hrefr]
    apply Vec3.ext_components <;> simp [Vec3.add_def, Vec3.smul_right_def]
  rw [hq, hmin] at hsch
  simp only [Material.scatter, hq, hmin]
  rw [if_neg (not_lt.mpr (by rw [one_mul]; exact hsin))]
  simp only [RNG.gen]
  rw [if_neg (not_lt.mpr hsch)]
  rw [hzero]

def rec7w : HitRecord := ⟨⟨0, 0, 0⟩, ⟨0, 0, 1⟩, .refractor ⟨1, 1, 1⟩ 0 1, 1, true⟩

def ray7w : Ray := ⟨⟨0, 0, 0⟩, ⟨0, 0, -1⟩⟩

theorem ray7w_unit : ray7w.direction.to_unit = ⟨0, 0, -1⟩ := by
  simp only [ray7w, Vec3.to_unit, Vec3.len, Vec3.len_squared]
  rw [show ((0:ℝ) * 0 + 0 * 0 + -1 * -1) = 1 by norm_num, Real.sqrt_one]
  apply Vec3.ext_components <;> simp [Vec3.div_def]

theorem refractor_unit_index_identity_witness :
    (Material.scatter (.refractor ⟨1, 1, 1⟩ 0 1) rec7w ray7w rng0).1 =
      some (⟨1, 1, 1⟩, Ray.mk ⟨0, 0, 0⟩ ⟨0, 0, -1⟩) := by
  have hn : (rec7w.normal * rec7w.normal : ℝ) = 1 := by
    simp only [rec7w, Vec3.dot_def]
    norm_num
  have hd : 0 < (ray7w.direction * ray7w.direction : ℝ) := by
    simp only [ray7w, Vec3.dot_def]
    norm_num
  have hcos : 0 ≤ ((-(ray7w.direction.to_unit)) * rec7w.normal : ℝ) := by
    rw [ray7w_unit]
    simp only [rec7w, Vec3.neg_def, Vec3.dot_def]
    norm_num
  have hdotval : ((-(ray7w.direction.to_unit)) * rec7w.normal : ℝ) = 1 := by
    rw [ray7w_unit]
    simp only [rec7w, Vec3.neg_def, Vec3.dot_def]
    norm_num
  have hsch : shlick_approximation_reflectance
      (min ((-(ray7w.direction.to_unit)) * rec7w.normal : ℝ) 1)
      (if rec7w.front_face then 1 / (1:ℝ) else 1) ≤ rng0.uniforms rng0.ui := by
    rw [hdotval]
    simp only [shlick_approximation_reflectance, rec7w, rng0]
    norm_num
  have h := refractor_unit_index_identity ⟨1, 1, 1⟩ rec7w ray7w rng0 hn hd hcos hsch
  rw [h, ray7w_unit]
  rfl

def mat7 : Material := .refractor ⟨1, 1, 1⟩ 0 1

def rec7 : HitRecord := ⟨⟨0, 0, 0⟩, ⟨0, 0, 1⟩, mat7, 1, true⟩

def ray7 : Ray := ⟨⟨0, 0, 0⟩, ⟨4, 0, -3⟩⟩

theorem sqrt_twentyfive : Real.sqrt 25 = 5 := by
  rw [show (25 : ℝ) = 5 ^ 2 by norm_num, Real.sqrt_sq (by norm_num : (0:ℝ) ≤ 5)]

theorem ray7_unit : ray7.direction.to_unit = ⟨4/5, 0, -3/5⟩ := by
  simp only [ray7, Vec3.to_unit, Vec3.len, Vec3.len_squared]
  rw [show ((4:ℝ) * 4 + 0 * 0 + -3 * -3) = 25 by norm_num, sqrt_twentyfive]
  apply Vec3.ext_components <;> simp [Vec3.div_def]

/-- C7 counterexample: with refraction index one but a grazing incidence and
a uniform draw of zero, the Schlick test chooses reflection, and the
scattered direction differs from the incoming unit direction even with fuzz
zero; so scatter does not leave the direction unchanged for every angle and
every draw. -/
theorem refractor_unit_index_counterexample :
    (Material.scatter mat7 rec7 ray7 rng0).1 =
      some (⟨1, 1, 1⟩, Ray.mk ⟨0, 0, 0⟩ ⟨4/5, 0, 3/5⟩)
    ∧ ray7.direction.to_unit = ⟨4/5, 0, -3/5⟩
    ∧ (⟨4/5, 0, 3/5⟩ : Vec3) ≠ (⟨4/5, 0, -3/5⟩ : Vec3) := by
  refine ⟨?_, ray7_unit, ?_⟩
  · have hdotval : ((-(ray7.direction.to_unit)) * rec7.normal : ℝ) = 3/5 := by
      rw [ray7_unit]
      simp only [rec7, Vec3.neg_def, Vec3.dot_def]
      norm_num
    have hmin : min ((-(ray7.direction.to_unit)) * rec7.normal : ℝ) 1 = 3/5 := by
      rw [hdotval]
      norm_num
    have hsin : Real.sqrt (1 - (3/5 : ℝ) ^ 2) = 4/5 := by
      rw [show (1 : ℝ) - (3/5:ℝ) ^ 2 = (4/5) ^ 2 by norm_num,
        Real.sqrt_sq (by norm_num : (0:ℝ) ≤ 4/5)]
    have hq : (if rec7.front_face then 1 / (1:ℝ) else 1) = 1 := by
      simp [rec7]
    have hrefl : (ray7.direction.to_unit).reflect rec7.normal =
        ⟨4/5, 0, 3/5⟩ := by
      rw [ray7_unit]
      simp only [rec7, Vec3.reflect, Vec3.dot_def, Vec3.smul_left_def,
        Vec3.sub_def]
      apply Vec3.ext_components <;> norm_num
    simp only [Material.scatter, mat7, hq, hmin, hsin]
    rw [if_neg (by norm_num : ¬ ((1:ℝ) * (4/5) > 1))]
    simp only [RNG.gen]
    rw [if_pos ?hc]
    case hc =>
      simp only [shlick_approximation_reflectance, rng0]
      norm_num
    rw [hrefl]
    simp only [Vec3.random_in_hemisphere, Vec3.random_in_unit_sphere, rng0]
    rw [if_pos ?hp]
    case hp =>
      simp only [rec7, Vec3.dot_def]
      norm_num
    have hfz : (⟨4/5, 0, 3/5⟩ : Vec3) + (⟨0, 0, 0.1⟩ : Vec3) * (0:ℝ) =
        ⟨4/5, 0, 3/5⟩ := by
      apply Vec3.ext_components <;> simp [Vec3.add_def, Vec3.smul_right_def]
    rw [hfz]
    rfl
  · intro h
    have := congrArg Vec3.z h
    norm_num at this

end
